import Mathlib

/-!
Verification of the tag-token engine of the Audio File Tagging Tool.

The TypeScript sources embedded here are `src/lib/tags.ts`, the tag helper
module `src/unnamed/part_001` (schema coercion, unknown-token detection) and
the pure string computation of `persistTagsWithBankDecision` in `src/App.tsx`.

JavaScript strings are modelled as `List Char` (`Str`); the string operations
used by the code (`split(';')`, `trim`, `startsWith`, `slice`, `endsWith`,
`join`, the regular expressions `/\s/` and `/^\d+$/`, `parseInt`, number
`toString`) are given faithful executable models below.  JS whitespace is
modelled by its ASCII subset, which is exact on every string the engine
produces. Numbers that the code only ever uses as integers are modelled
as `Int` (amounts, amount-range bounds) or `Int`-valued fields.
-/

namespace AudioTags

/-- JavaScript strings, modelled as character lists. -/
abbrev Str := List Char

/-- ASCII fragment of the JS `\s` character class (space, tab, LF, VT, FF, CR). -/
def isWsp (c : Char) : Bool :=
  c = ' ' || c = '\t' || c = '\n' || c = '\x0b' || c = '\x0c' || c = '\r'

/-- `String.prototype.split(';')`. -/
def splitOnSemi : Str → List Str
  | [] => [[]]
  | c :: rest =>
    if c = ';' then [] :: splitOnSemi rest
    else
      match splitOnSemi rest with
      | [] => [[c]]
      | t :: ts => (c :: t) :: ts

/-- `Array.prototype.join(';')` on a list of strings. -/
def joinSemi : List Str → Str
  | [] => []
  | [t] => t
  | t :: ts => t ++ ';' :: joinSemi ts

/-- Left part of `String.prototype.trim()`. -/
def trimLeft (s : Str) : Str := s.dropWhile isWsp

/-- Right part of `String.prototype.trim()`. -/
def trimRight (s : Str) : Str := ((s.reverse).dropWhile isWsp).reverse

/-- `String.prototype.trim()`. -/
def trim (s : Str) : Str := trimRight (trimLeft s)

/-- The JS regular expression test `/^\d+$/.test s`: one or more decimal digits. -/
def isDigitStr (s : Str) : Bool := !s.isEmpty && s.all Char.isDigit

/-- Numeric value of a decimal digit character. -/
def charVal (c : Char) : Nat := c.toNat - '0'.toNat

/-- `parseInt(s, 10)` on an all-digit string. -/
def parseDigits (s : Str) : Nat := s.foldl (fun a c => 10 * a + charVal c) 0

/-- Fueled digit expansion; `fuel > n` always suffices since the argument
shrinks by a factor of ten each step.  Structural recursion keeps the
function computable by the kernel. -/
def natToCharsAux : Nat → Nat → Str
  | 0, _ => []
  | fuel + 1, n =>
    if n < 10 then [Nat.digitChar n]
    else natToCharsAux fuel (n / 10) ++ [Nat.digitChar (n % 10)]

/-- Decimal digits of a natural number, most significant first
(JS `Number.prototype.toString` on a non-negative integer). -/
def natToChars (n : Nat) : Str := natToCharsAux (n + 1) n

/-- JS `Number.prototype.toString` on an integer value. -/
def intToChars (i : Int) : Str :=
  if i < 0 then '-' :: natToChars i.natAbs else natToChars i.toNat

/-! ## Data model (`src/types.ts`) -/

/-- `TagType` of `src/types.ts`. -/
inductive TagType where
  | main
  | mandatory
  | optional
deriving DecidableEq, Repr

/-- The `amountRange` record `{min, max}`. -/
structure AmountRange where
  min : Int
  max : Int
deriving DecidableEq, Repr

/-- `TagDef` of `src/types.ts`.  A `parent` value of `some []` models the
empty string, which is falsy in JS and is therefore treated as "no parent"
by the code. -/
structure TagDef where
  id : Str
  name : Str
  type : TagType
  parent : Option Str := none
  amountRange : Option AmountRange := none
deriving DecidableEq, Repr

/-- One entry of a selection: a matched tag definition together with its
optional amount (`{ tag: TagDef; amount: number | null }`). -/
structure SelEntry where
  tag : TagDef
  amount : Option Int
deriving DecidableEq, Repr

/-- `TagsFile` of `src/types.ts`. -/
structure TagsFile where
  version : Int
  tags : List TagDef
deriving DecidableEq, Repr

/-- The ids of a selection, in order. -/
def ids (l : List SelEntry) : List Str := l.map (fun s => s.tag.id)

/-- The ids of a vocabulary, in order. -/
def defIds (all : List TagDef) : List Str := all.map (fun t => t.id)

/-! ## `src/lib/tags.ts` -/

/-- `emptyTags` of `tags.ts`. -/
def emptyTags : TagsFile := { version := 1, tags := [] }

/-- `validateTagName` of `tags.ts`: throws on an empty name (`!name`, the
empty string being falsy), on a name containing JS whitespace (`/\s/`), and
on a name containing a semicolon; otherwise it returns normally.  The thrown
message is modelled as the `error` payload. -/
def validateTagName (name : Str) : Except Str Unit :=
  if name = [] then .error ("Tag name required".data)
  else if name.any isWsp then
    .error ("No spaces allowed in tag names (use CamelCase or underscores)".data)
  else if name.contains ';' then .error ("Semicolons are reserved as separators".data)
  else .ok ()

instance : DecidableEq (Except Str Unit) := fun a b =>
  match a, b with
  | .ok (), .ok () => isTrue rfl
  | .error e1, .error e2 =>
    if h : e1 = e2 then isTrue (by rw [h])
    else isFalse (fun hc => h (by injection hc))
  | .ok _, .error _ => isFalse (fun hc => Except.noConfusion hc)
  | .error _, .ok _ => isFalse (fun hc => Except.noConfusion hc)

/-- `all.find(t => t.id === id)`. -/
def findById (all : List TagDef) (pid : Str) : Option TagDef :=
  all.find? (fun t => t.id == pid)

/-- One step of the parent walk of `topoParents`: look the id up in the
vocabulary and return its parent when that parent is truthy (non-empty
string).  `none` is exactly the case in which the source returns `acc`. -/
def parentStep (all : List TagDef) (id : Str) : Option Str :=
  match findById all id with
  | none => none
  | some tag =>
    match tag.parent with
    | none => none
    | some p => if p = [] then none else some p

/-- `topoParents` of `tags.ts`, with an explicit fuel parameter.  The source
recursion has no cycle guard and diverges on a cyclic parent graph; on every
input on which the source terminates, a fuel of `all.length + 1` is enough
(each recursive call passes through a distinct definition of `all`), and the
fueled function computes the same accumulator.  The JS `Set` accumulator is
modelled as a duplicate-free list in insertion order. -/
def topoParents (all : List TagDef) : Nat → Str → List Str → List Str
  | 0, _, acc => acc
  | fuel + 1, id, acc =>
    match parentStep all id with
    | none => acc
    | some p => topoParents all fuel p (if acc.contains p then acc else acc ++ [p])

/-- `topoParents(all, id)` with the default empty accumulator and the fuel
sufficient for every terminating run of the source. -/
def topoParentsRun (all : List TagDef) (id : Str) : List Str :=
  topoParents all (all.length + 1) id []

/-- The bare parent chain walked by `topoParents`: the parents in the order
the walk visits them (with repetitions once the walk enters a cycle). -/
def chain (all : List TagDef) : Nat → Str → List Str
  | 0, _ => []
  | fuel + 1, id =>
    match parentStep all id with
    | none => []
    | some p => p :: chain all fuel p

/-- `tokenToTagMatch` of `tags.ts`.  For each definition in vocabulary order:
a definition with a (truthy) `amountRange` matches when the token starts with
its name and the rest is one or more digits, yielding the parsed amount; any
definition also matches its exact name with a `null` amount.  First match
wins; no match yields `(null, null)`. -/
def tokenToTagMatch (token : Str) : List TagDef → Option TagDef × Option Int
  | [] => (none, none)
  | t :: rest =>
    if t.amountRange.isSome && t.name.isPrefixOf token
        && isDigitStr (token.drop t.name.length) then
      (some t, some (Int.ofNat (parseDigits (token.drop t.name.length))))
    else if token = t.name then (some t, none)
    else tokenToTagMatch token rest

/-- The token written for one selection entry by `stringifyTagsForComment`:
`name + (amount ?? 0)` when the definition has an amount range, the bare
name otherwise. -/
def entryToken (s : SelEntry) : Str :=
  if s.tag.amountRange.isSome then s.tag.name ++ intToChars (s.amount.getD 0)
  else s.tag.name

/-- `stringifyTagsForComment` of `tags.ts`. -/
def stringifyTagsForComment (tags : List SelEntry) : Str :=
  joinSemi (tags.map entryToken)

/-- `splitTokens` of the tag helper module: split on `;`, trim each piece,
drop empty pieces.  `parseCommentToTags` performs the same computation
inline. -/
def splitTokens (comment : Str) : List Str :=
  ((splitOnSemi comment).map trim).filter (fun s => !s.isEmpty)

/-- `parseCommentToTags` of `tags.ts`: tokenize the comment and keep each
token's match when one exists. -/
def parseCommentToTags (comment : Str) (all : List TagDef) : List SelEntry :=
  (splitTokens comment).filterMap (fun tok =>
    match tokenToTagMatch tok all with
    | (some t, a) => some ⟨t, a⟩
    | (none, _) => none)

/-- The entry pushed for a definition that enforcement adds: amount `0` when
the definition has an amount range, `null` otherwise. -/
def entryFor (t : TagDef) : SelEntry :=
  ⟨t, if t.amountRange.isSome then some 0 else none⟩

/-- One `Map.prototype.set` step of `dedupeById`: replace the value stored
under an existing key in place, otherwise append the new key. -/
def mapSet (m : List SelEntry) (e : SelEntry) : List SelEntry :=
  if m.any (fun x => x.tag.id == e.tag.id) then
    m.map (fun x => if x.tag.id = e.tag.id then e else x)
  else m ++ [e]

/-- `dedupeById` of `tags.ts`: a JS `Map` keyed by definition id, so keys
keep their first-insertion position while a duplicate id overwrites the
stored value (last value wins). -/
def dedupeById (list : List SelEntry) : List SelEntry :=
  list.foldl mapSet []

/-- The `toAddParents` array of `enforceParentAndMandatory`: for each
selected entry, the parents computed by `topoParents` that are not already
selected, in iteration order. -/
def toAddParents (selected : List SelEntry) (all : List TagDef) : List Str :=
  selected.flatMap (fun s =>
    (topoParentsRun all s.tag.id).filter (fun pid => !(ids selected).contains pid))

/-- The entries pushed by the parent loop of `enforceParentAndMandatory`:
each collected parent id found in the vocabulary and not already selected
(`selectedIds` is never updated in the source, so the check is against the
original selection). -/
def parentAdds (selected : List SelEntry) (all : List TagDef) : List SelEntry :=
  (toAddParents selected all).filterMap (fun pid =>
    match findById all pid with
    | some pt => if (ids selected).contains pid then none else some (entryFor pt)
    | none => none)

/-- The entries pushed by the mandatory loop of `enforceParentAndMandatory`:
every `mandatory`-classified definition whose id is not already selected. -/
def mandAdds (selected : List SelEntry) (all : List TagDef) : List SelEntry :=
  (all.filter (fun t => t.type == TagType.mandatory)).filterMap
    (fun t => if (ids selected).contains t.id then none else some (entryFor t))

/-- `enforceParentAndMandatory` of `tags.ts`: the parent pushes and the
mandatory pushes are appended to the input selection, and the whole list is
then deduplicated by id. -/
def enforceParentAndMandatory (selected : List SelEntry) (all : List TagDef) :
    List SelEntry :=
  dedupeById (selected ++ parentAdds selected all ++ mandAdds selected all)

/-- `ensureAtLeastOneMain` of `tags.ts`. -/
def ensureAtLeastOneMain (list : List SelEntry) (all : List TagDef) : Bool :=
  list.any (fun x => x.tag.type == TagType.main)
    || (all.filter (fun t => t.type == TagType.main)).length == 0

/-! ## The tag helper module (`src/unnamed/part_001`) -/

/-- `TAGS_SCHEMA_VERSION` of the helper module. -/
def TAGS_SCHEMA_VERSION : Int := 1

/-- Classification of the `version` field of a loaded tags file, as observed
by `typeof input.version === "number"`: a number, or anything else
(absent, `null`, a string, ...). -/
inductive VersionField where
  | num (n : Int)
  | other
deriving DecidableEq, Repr

/-- The shape of a parsed JSON value passed to `coerceTagsFile`, restricted
to the two fields the function reads: `tags` is `some` exactly when
`Array.isArray(input.tags)` holds (carrying the array), and `version`
records the `typeof` classification above.  A falsy or non-object input is
modelled as `none` at the call site. -/
structure RawTagsFile where
  tags : Option (List TagDef)
  version : VersionField
deriving DecidableEq, Repr

/-- `coerceTagsFile` of the helper module: a falsy input or a non-array
`tags` field yields the empty vocabulary; otherwise the tags are taken as
they are and the version defaults to `TAGS_SCHEMA_VERSION` unless the input
carries a number.  The function is total: no branch throws. -/
def coerceTagsFile (input : Option RawTagsFile) : TagsFile :=
  match input with
  | none => emptyTags
  | some f =>
    match f.tags with
    | none => emptyTags
    | some ts =>
      { version := match f.version with
          | .num n => n
          | .other => TAGS_SCHEMA_VERSION
        tags := ts }

/-- The reserved bank-sentinel prefix `"TagB:"` of the helper module and of
`App.tsx`. -/
def tagBankPrefix : Str := "TagB:".data

/-- The per-definition test inside the loop of `isRecognizedToken`: a
definition without an amount range recognizes its exact name; one with a
range recognizes its name followed by one or more digits whose parsed value
lies within the range (bounds inclusive). -/
def recognizes (t : TagDef) (token : Str) : Bool :=
  match t.amountRange with
  | none => token == t.name
  | some r =>
    t.name.isPrefixOf token &&
      isDigitStr (token.drop t.name.length) &&
      (r.min ≤ Int.ofNat (parseDigits (token.drop t.name.length))
        && Int.ofNat (parseDigits (token.drop t.name.length)) ≤ r.max)

/-- `isRecognizedToken` of the helper module: any token starting with the
bank-sentinel prefix is recognized; otherwise the vocabulary is scanned with
`recognizes`. -/
def isRecognizedToken (token : Str) (defs : List TagDef) : Bool :=
  tagBankPrefix.isPrefixOf token || defs.any (fun t => recognizes t token)

/-- `unknownTokensFromComment` of the helper module. -/
def unknownTokensFromComment (comment : Str) (defs : List TagDef) : List Str :=
  (splitTokens comment).filter (fun t => !isRecognizedToken t defs)

/-! ## `persistTagsWithBankDecision` (`src/App.tsx`)

The source function also performs the metadata write and UI updates; the
embedded function is its string computation: it returns `none` when the
main-tag gate rejects the write (the source alerts and returns early) and
otherwise the exact comment string passed to `writeComment`. -/

/-- The pure core of `persistTagsWithBankDecision`: enforce the selection,
gate on at least one main tag, serialize, optionally append the unknown
tokens of the pre-edit comment, then strip every existing bank-sentinel
token and append exactly one sentinel for the active bank, terminating the
string with `;`. -/
def persistTagsWithBankDecision (chosen : List SelEntry)
    (removeUnknowns keepUnknowns : Bool) (comment : Str)
    (tags : List TagDef) (bank : Str) : Option Str :=
  let final := enforceParentAndMandatory (dedupeById chosen) tags
  if !ensureAtLeastOneMain final tags then none
  else
    let str := stringifyTagsForComment final
    let str :=
      if keepUnknowns && !removeUnknowns then
        let unknown := unknownTokensFromComment comment tags
        if !unknown.isEmpty then
          (if !str.isEmpty && !([';'].isSuffixOf str) then str ++ [';'] else str)
            ++ (unknown.map (fun u => u ++ [';'])).flatten
        else str
      else str
    let toks := (splitTokens str).filter (fun t => !tagBankPrefix.isPrefixOf t)
    let toks := toks ++ [tagBankPrefix ++ bank]
    some (joinSemi toks ++ [';'])

/-! ## Specification-side definitions

These follow the words of the specification (and of the claims) rather than
the source; the theorems below compare them with the embedded code. -/

/-- A definition "captures" a token: the disjunction of the two ways one
iteration of the `tokenToTagMatch` loop can return at this definition
(amount-range prefix-plus-digits, or exact name equality). -/
def captures (t : TagDef) (token : Str) : Bool :=
  (t.amountRange.isSome && t.name.isPrefixOf token
      && isDigitStr (token.drop t.name.length))
    || token == t.name

/-- The amount a capture yields: the parsed digit suffix on the
amount-range path, `null` on the exact-equality path. -/
def amountOf (t : TagDef) (token : Str) : Option Int :=
  if t.amountRange.isSome && t.name.isPrefixOf token
      && isDigitStr (token.drop t.name.length) then
    some (Int.ofNat (parseDigits (token.drop t.name.length)))
  else none

/-- Token matching as the specification words it: scan the vocabulary in
order, first capturing definition wins, with the amount of its capture. -/
def matchSpec (token : Str) (all : List TagDef) : Option TagDef × Option Int :=
  match all.find? (fun t => captures t token) with
  | none => (none, none)
  | some t => (some t, amountOf t token)

/-- The name validity enforced by `validateTagName`, as a Boolean:
non-empty, no JS whitespace, no semicolon. -/
def validName (n : Str) : Bool :=
  !n.isEmpty && !(n.any isWsp) && !(n.contains ';')

/-- The `(id, amount)` pair of a selection entry, the view under which the
specification compares selections. -/
def idAmount (e : SelEntry) : Str × Option Int := (e.tag.id, e.amount)

/-! ## Concrete fixtures used by counterexamples and witnesses -/

/-- An optional tag `vocal` without an amount range. -/
def vocalDef : TagDef :=
  { id := "vocal".data, name := "vocal".data, type := TagType.optional }

/-- An optional tag `energy` with amount range 0..10. -/
def energyDef : TagDef :=
  { id := "energy".data, name := "energy".data, type := TagType.optional,
    amountRange := some ⟨0, 10⟩ }

/-- An optional tag whose name `energy5` is the name of `energyDef` followed
by a digit. -/
def e5Def : TagDef :=
  { id := "e5".data, name := "energy5".data, type := TagType.optional }

/-- An optional parent tag `q`. -/
def qDef : TagDef :=
  { id := "q".data, name := "q".data, type := TagType.optional }

/-- A mandatory tag `m` whose parent is `q`. -/
def mDef : TagDef :=
  { id := "m".data, name := "m".data, type := TagType.mandatory,
    parent := some ("q".data) }

/-- A main-classified tag `energy` with amount range 0..10. -/
def energyMainDef : TagDef :=
  { id := "energy".data, name := "energy".data, type := TagType.main,
    amountRange := some ⟨0, 10⟩ }

/-- A main-classified tag `lead` whose parent is `vocal`. -/
def leadDef : TagDef :=
  { id := "lead".data, name := "lead".data, type := TagType.main,
    parent := some ("vocal".data) }

/-- A mandatory tag `reviewed` without a parent. -/
def reviewedDef : TagDef :=
  { id := "reviewed".data, name := "reviewed".data, type := TagType.mandatory }

/-! ## String lemmas -/

theorem splitOnSemi_ne_nil (s : Str) : splitOnSemi s ≠ [] := by
  induction s with
  | nil => simp [splitOnSemi]
  | cons c rest ih =>
    simp only [splitOnSemi]
    split
    · simp
    · cases h : splitOnSemi rest with
      | nil => simp
      | cons t ts => simp

theorem splitOnSemi_no_semi (tok : Str) (h : ';' ∉ tok) : splitOnSemi tok = [tok] := by
  induction tok with
  | nil => rfl
  | cons c rest ih =>
    have hc : c ≠ ';' := fun hc => h (hc ▸ List.mem_cons_self c rest)
    have hr : splitOnSemi rest = [rest] := ih (fun hm => h (List.mem_cons_of_mem c hm))
    simp [splitOnSemi, hc, hr]

theorem splitOnSemi_append_semi (tok rest : Str) (h : ';' ∉ tok) :
    splitOnSemi (tok ++ ';' :: rest) = tok :: splitOnSemi rest := by
  induction tok with
  | nil => simp [splitOnSemi]
  | cons c tok' ih =>
    have hc : c ≠ ';' := fun hc => h (hc ▸ List.mem_cons_self c tok')
    have hr := ih (fun hm => h (List.mem_cons_of_mem c hm))
    simp only [List.cons_append, splitOnSemi, if_neg hc, List.append_eq, hr]

theorem mem_splitOnSemi_no_semi (s : Str) : ∀ p ∈ splitOnSemi s, ';' ∉ p := by
  induction s with
  | nil =>
    intro p hp
    have : p = [] := by simpa [splitOnSemi] using hp
    simp [this]
  | cons c rest ih =>
    intro p hp
    by_cases hc : c = ';'
    · subst hc
      simp only [splitOnSemi, if_pos rfl] at hp
      rcases List.mem_cons.mp hp with h1 | h2
      · simp [h1]
      · exact ih p h2
    · simp only [splitOnSemi, if_neg hc] at hp
      cases h : splitOnSemi rest with
      | nil => exact absurd h (splitOnSemi_ne_nil rest)
      | cons t ts =>
        rw [h] at hp
        rcases List.mem_cons.mp hp with h1 | h2
        · subst h1
          intro hm
          rcases List.mem_cons.mp hm with h3 | h4
          · exact hc h3.symm
          · exact ih t (h ▸ List.mem_cons_self t ts) h4
        · exact ih p (h ▸ List.mem_cons_of_mem t h2)

theorem joinSemi_cons_cons (t u : Str) (ts : List Str) :
    joinSemi (t :: u :: ts) = t ++ ';' :: joinSemi (u :: ts) := rfl

theorem splitOnSemi_joinSemi (toks : List Str) (h : ∀ t ∈ toks, ';' ∉ t)
    (hne : toks ≠ []) : splitOnSemi (joinSemi toks) = toks := by
  induction toks with
  | nil => exact absurd rfl hne
  | cons t ts ih =>
    cases ts with
    | nil => exact splitOnSemi_no_semi t (h t (List.mem_cons_self t []))
    | cons u ts' =>
      rw [joinSemi_cons_cons, splitOnSemi_append_semi _ _ (h t (List.mem_cons_self t _)),
        ih (fun x hx => h x (List.mem_cons_of_mem t hx)) (by simp)]

theorem splitOnSemi_joinSemi_trail (toks : List Str) (h : ∀ t ∈ toks, ';' ∉ t)
    (hne : toks ≠ []) : splitOnSemi (joinSemi toks ++ [';']) = toks ++ [[]] := by
  induction toks with
  | nil => exact absurd rfl hne
  | cons t ts ih =>
    cases ts with
    | nil =>
      have : joinSemi [t] ++ [';'] = t ++ ';' :: [] := rfl
      rw [this, splitOnSemi_append_semi _ _ (h t (List.mem_cons_self t []))]
      rfl
    | cons u ts' =>
      have : joinSemi (t :: u :: ts') ++ [';'] = t ++ ';' :: (joinSemi (u :: ts') ++ [';']) := by
        rw [joinSemi_cons_cons]
        simp
      rw [this, splitOnSemi_append_semi _ _ (h t (List.mem_cons_self t _)),
        ih (fun x hx => h x (List.mem_cons_of_mem t hx)) (by simp)]
      rfl

theorem dropWhile_dropWhile (p : Char → Bool) (l : Str) :
    (l.dropWhile p).dropWhile p = l.dropWhile p := by
  induction l with
  | nil => rfl
  | cons c rest ih =>
    by_cases hc : p c
    · simp [List.dropWhile_cons, hc, ih]
    · simp [List.dropWhile_cons, hc]

theorem dropWhile_eq_self_of (p : Char → Bool) (l : Str)
    (h : ∀ c ∈ l, p c = false) : l.dropWhile p = l := by
  cases l with
  | nil => rfl
  | cons c rest =>
    rw [List.dropWhile_cons, h c (List.mem_cons_self c rest)]
    simp

theorem trimLeft_eq_self (s : Str) (h : ∀ c ∈ s, isWsp c = false) :
    trimLeft s = s :=
  dropWhile_eq_self_of isWsp s h

theorem trimRight_eq_self (s : Str) (h : ∀ c ∈ s, isWsp c = false) :
    trimRight s = s := by
  rw [trimRight,
    dropWhile_eq_self_of isWsp s.reverse (fun c hc => h c (List.mem_reverse.mp hc)),
    List.reverse_reverse]

theorem trim_eq_self (s : Str) (h : ∀ c ∈ s, isWsp c = false) : trim s = s := by
  rw [trim, trimLeft_eq_self s h, trimRight_eq_self s h]

theorem trimRight_prefix_self (s : Str) : trimRight s <+: s := by
  have h := List.reverse_prefix.mpr (List.dropWhile_suffix (l := s.reverse) isWsp)
  rwa [List.reverse_reverse] at h

theorem trim_sublist (s : Str) : (trim s).Sublist s := by
  have h1 : (trimRight (trimLeft s)).Sublist (trimLeft s) :=
    (trimRight_prefix_self (trimLeft s)).sublist
  have h2 : (trimLeft s).Sublist s := List.dropWhile_sublist isWsp
  exact h1.trans h2

theorem trimLeft_head_not_wsp (s : Str) (c : Char) (rest : Str)
    (h : trimLeft s = c :: rest) : isWsp c = false := by
  have h2 : trimLeft (trimLeft s) = trimLeft s := dropWhile_dropWhile isWsp s
  rw [h] at h2
  by_cases hc : isWsp c
  · exfalso
    rw [trimLeft, List.dropWhile_cons, if_pos hc] at h2
    have hlen := (List.dropWhile_sublist (l := rest) isWsp).length_le
    rw [h2] at hlen
    simp at hlen
  · simp [Bool.not_eq_true] at hc
    exact hc

theorem trim_idem (s : Str) : trim (trim s) = trim s := by
  have hL : trimLeft (trim s) = trim s := by
    rw [trim]
    rcases trimRight_prefix_self (trimLeft s) with ⟨tail, htail⟩
    cases hcase : trimRight (trimLeft s) with
    | nil => rfl
    | cons c rest =>
      have hc : isWsp c = false := by
        refine trimLeft_head_not_wsp s c (rest ++ tail) ?h
        rw [← htail, hcase]
        simp
      rw [trimLeft, List.dropWhile_cons, hc]
      simp
  show trimRight (trimLeft (trim s)) = trim s
  rw [hL, trim, trimRight, trimRight, List.reverse_reverse, dropWhile_dropWhile]

theorem trim_no_semi (s : Str) (h : ';' ∉ s) : ';' ∉ trim s :=
  fun hm => h ((trim_sublist s).subset hm)

theorem trim_nil : trim [] = [] := rfl

/-- A token produced by `splitTokens` is non-empty, contains no semicolon,
and is trim-fixed. -/
theorem mem_splitTokens (s t : Str) (h : t ∈ splitTokens s) :
    t ≠ [] ∧ ';' ∉ t ∧ trim t = t := by
  rw [splitTokens, List.mem_filter] at h
  obtain ⟨hmem, hne⟩ := h
  rcases List.mem_map.mp hmem with ⟨p, hp, rfl⟩
  refine ⟨by simpa using hne, ?semi, trim_idem p⟩
  exact trim_no_semi p (mem_splitOnSemi_no_semi s p hp)

theorem map_trim_fixed (l : List Str) (h : ∀ t ∈ l, trim t = t) :
    List.map trim l = l := by
  induction l with
  | nil => rfl
  | cons t ts ih =>
    rw [List.map_cons, h t (List.mem_cons_self t ts),
      ih (fun x hx => h x (List.mem_cons_of_mem t hx))]

theorem filter_nonempty_fixed (l : List Str) (h : ∀ t ∈ l, t ≠ []) :
    List.filter (fun s => !s.isEmpty) l = l := by
  apply List.filter_eq_self.mpr
  intro a ha
  cases a with
  | nil => exact absurd rfl (h [] ha)
  | cons c rest => rfl

/-- `splitTokens` recovers a list of well-formed tokens from their joined,
semicolon-terminated form. -/
theorem splitTokens_joinSemi_trail (toks : List Str)
    (h : ∀ t ∈ toks, t ≠ [] ∧ ';' ∉ t ∧ trim t = t) :
    splitTokens (joinSemi toks ++ [';']) = toks := by
  cases toks with
  | nil => rfl
  | cons t ts =>
    rw [splitTokens,
      splitOnSemi_joinSemi_trail (t :: ts) (fun x hx => (h x hx).2.1) (by simp)]
    rw [List.map_append, map_trim_fixed (t :: ts) (fun x hx => (h x hx).2.2)]
    rw [List.filter_append,
      filter_nonempty_fixed (t :: ts) (fun x hx => (h x hx).1)]
    simp [trim_nil]

/-- `splitTokens` recovers a list of well-formed tokens from their joined
form without a trailing delimiter. -/
theorem splitTokens_joinSemi (toks : List Str)
    (h : ∀ t ∈ toks, t ≠ [] ∧ ';' ∉ t ∧ trim t = t) :
    splitTokens (joinSemi toks) = toks := by
  cases toks with
  | nil => rfl
  | cons t ts =>
    rw [splitTokens,
      splitOnSemi_joinSemi (t :: ts) (fun x hx => (h x hx).2.1) (by simp)]
    rw [map_trim_fixed (t :: ts) (fun x hx => (h x hx).2.2)]
    exact filter_nonempty_fixed (t :: ts) (fun x hx => (h x hx).1)

/-! ## Digit and number lemmas -/

theorem charVal_digitChar : ∀ n, n < 10 → charVal (Nat.digitChar n) = n := by decide

theorem isDigit_digitChar : ∀ n, n < 10 → (Nat.digitChar n).isDigit = true := by decide

theorem parseDigits_append_digit (l : Str) (c : Char) :
    parseDigits (l ++ [c]) = 10 * parseDigits l + charVal c := by
  simp [parseDigits, List.foldl_append]

theorem natToCharsAux_spec : ∀ fuel n, n < fuel →
    (∀ c ∈ natToCharsAux fuel n, c.isDigit = true) ∧ natToCharsAux fuel n ≠ [] ∧
    parseDigits (natToCharsAux fuel n) = n := by
  intro fuel
  induction fuel with
  | zero =>
    intro n h
    omega
  | succ fuel ih =>
    intro n h
    rw [natToCharsAux]
    by_cases h10 : n < 10
    · rw [if_pos h10]
      refine ⟨?dig, by simp, ?par⟩
      · intro c hc
        rw [List.mem_singleton.mp hc]
        exact isDigit_digitChar n h10
      · simp [parseDigits, charVal_digitChar n h10]
    · rw [if_neg h10]
      have hdiv : n / 10 < fuel := by
        have := Nat.div_lt_self (show 0 < n by omega) (show 1 < 10 by omega)
        omega
      obtain ⟨hd, hne, hp⟩ := ih (n / 10) hdiv
      refine ⟨?dig2, by simp, ?par2⟩
      · intro c hc
        rcases List.mem_append.mp hc with h1 | h2
        · exact hd c h1
        · rw [List.mem_singleton.mp h2]
          exact isDigit_digitChar (n % 10) (Nat.mod_lt n (by omega))
      · rw [parseDigits_append_digit, hp,
          charVal_digitChar (n % 10) (Nat.mod_lt n (by omega))]
        omega

theorem natToChars_ne_nil (n : Nat) : natToChars n ≠ [] :=
  (natToCharsAux_spec (n + 1) n (by omega)).2.1

theorem natToChars_digits (n : Nat) : ∀ c ∈ natToChars n, c.isDigit = true :=
  (natToCharsAux_spec (n + 1) n (by omega)).1

theorem parseDigits_natToChars (n : Nat) : parseDigits (natToChars n) = n :=
  (natToCharsAux_spec (n + 1) n (by omega)).2.2

theorem isDigitStr_natToChars (n : Nat) : isDigitStr (natToChars n) = true := by
  rw [isDigitStr]
  have h1 : (natToChars n).isEmpty = false := by
    simp [List.isEmpty_iff, natToChars_ne_nil n]
  rw [h1]
  simpa using List.all_eq_true.mpr (fun c hc => natToChars_digits n c hc)

theorem natToChars_no_semi (n : Nat) : ';' ∉ natToChars n := by
  intro hm
  have := natToChars_digits n ';' hm
  simp [Char.isDigit] at this

theorem isWsp_chars (c : Char) (h : isWsp c = true) :
    c = ' ' ∨ c = '\t' ∨ c = '\n' ∨ c = '\x0b' ∨ c = '\x0c' ∨ c = '\r' := by
  rw [isWsp] at h
  simp only [Bool.or_eq_true, decide_eq_true_eq] at h
  tauto

theorem isDigit_not_wsp (c : Char) (h : c.isDigit = true) : isWsp c = false := by
  cases hw : isWsp c with
  | false => rfl
  | true =>
    exfalso
    rcases isWsp_chars c hw with h1 | h1 | h1 | h1 | h1 | h1 <;>
      (subst h1; exact absurd h (by decide))

theorem natToChars_no_wsp (n : Nat) : ∀ c ∈ natToChars n, isWsp c = false :=
  fun c hc => isDigit_not_wsp c (natToChars_digits n c hc)

theorem intToChars_nonneg (i : Int) (h : 0 ≤ i) :
    intToChars i = natToChars i.toNat := by
  rw [intToChars, if_neg (by omega)]

/-! ## `dedupeById` lemmas -/

theorem mem_of_mem_mapSet (m : List SelEntry) (e x : SelEntry)
    (h : x ∈ mapSet m e) : x ∈ m ∨ x = e := by
  rw [mapSet] at h
  split at h
  · rcases List.mem_map.mp h with ⟨y, hy, hxy⟩
    by_cases hid : y.tag.id = e.tag.id
    · right
      rw [if_pos hid] at hxy
      exact hxy.symm
    · left
      rw [if_neg hid] at hxy
      exact hxy ▸ hy
  · rcases List.mem_append.mp h with h1 | h2
    · exact Or.inl h1
    · exact Or.inr (List.mem_singleton.mp h2)

theorem ids_mapSet (m : List SelEntry) (e : SelEntry) (x : Str) :
    x ∈ ids (mapSet m e) ↔ x ∈ ids m ∨ x = e.tag.id := by
  rw [mapSet]
  split
  case isTrue hpres =>
    constructor
    · intro hx
      rcases List.mem_map.mp hx with ⟨y, hy, hxy⟩
      rcases List.mem_map.mp hy with ⟨z, hz, hyz⟩
      by_cases hid : z.tag.id = e.tag.id
      · right
        rw [if_pos hid] at hyz
        rw [← hxy, ← hyz]
      · left
        rw [if_neg hid] at hyz
        exact List.mem_map.mpr ⟨z, hz, by rw [hyz, hxy]⟩
    · intro hx
      rcases hx with hx | hx
      · rcases List.mem_map.mp hx with ⟨z, hz, hxz⟩
        refine List.mem_map.mpr ⟨if z.tag.id = e.tag.id then e else z,
          List.mem_map.mpr ⟨z, hz, rfl⟩, ?val⟩
        by_cases hid : z.tag.id = e.tag.id
        · rw [if_pos hid, ← hxz, hid]
        · rw [if_neg hid, hxz]
      · rcases List.any_eq_true.mp hpres with ⟨z, hz, hzid⟩
        refine List.mem_map.mpr ⟨if z.tag.id = e.tag.id then e else z,
          List.mem_map.mpr ⟨z, hz, rfl⟩, ?val2⟩
        rw [if_pos (by simpa using hzid), hx]
  case isFalse =>
    rw [ids, List.map_append]
    simp [ids]

theorem ids_cons (e : SelEntry) (l : List SelEntry) :
    ids (e :: l) = e.tag.id :: ids l := rfl

theorem ids_append (a b : List SelEntry) : ids (a ++ b) = ids a ++ ids b :=
  List.map_append _ a b

theorem ids_foldl_mapSet (l : List SelEntry) (m : List SelEntry) (x : Str) :
    x ∈ ids (l.foldl mapSet m) ↔ x ∈ ids m ∨ x ∈ ids l := by
  induction l generalizing m with
  | nil => simp [ids]
  | cons e l ih =>
    rw [List.foldl_cons, ih, ids_mapSet, ids_cons, List.mem_cons]
    tauto

theorem mem_ids_dedupeById (l : List SelEntry) (x : Str) :
    x ∈ ids (dedupeById l) ↔ x ∈ ids l := by
  rw [dedupeById, ids_foldl_mapSet]
  simp [ids]

theorem mem_of_mem_foldl_mapSet (l m : List SelEntry) (x : SelEntry)
    (h : x ∈ l.foldl mapSet m) : x ∈ m ∨ x ∈ l := by
  induction l generalizing m with
  | nil => exact Or.inl h
  | cons e l ih =>
    rw [List.foldl_cons] at h
    rcases ih (mapSet m e) h with h1 | h2
    · rcases mem_of_mem_mapSet m e x h1 with h3 | h4
      · exact Or.inl h3
      · exact Or.inr (h4 ▸ List.mem_cons_self e l)
    · exact Or.inr (List.mem_cons_of_mem e h2)

theorem mem_of_mem_dedupeById (l : List SelEntry) (x : SelEntry)
    (h : x ∈ dedupeById l) : x ∈ l := by
  rcases mem_of_mem_foldl_mapSet l [] x h with h1 | h2
  · exact absurd h1 (List.not_mem_nil x)
  · exact h2

theorem ids_mapSet_nodup (m : List SelEntry) (e : SelEntry)
    (h : (ids m).Nodup) : (ids (mapSet m e)).Nodup := by
  rw [mapSet]
  split
  case isTrue =>
    have : ids (m.map (fun x => if x.tag.id = e.tag.id then e else x)) = ids m := by
      rw [ids, List.map_map, ids]
      apply List.map_congr_left
      intro a _
      by_cases hid : a.tag.id = e.tag.id
      · simp [hid]
      · simp [hid]
    rw [this]
    exact h
  case isFalse hnp =>
    rw [ids, List.map_append]
    refine List.Nodup.append h (by simp) ?disj
    intro a ha hb
    have hae : a = e.tag.id := by simpa [ids] using hb
    apply hnp
    rcases List.mem_map.mp ha with ⟨z, hz, hza⟩
    exact List.any_eq_true.mpr ⟨z, hz, by simp [hza, hae]⟩

theorem ids_dedupeById_nodup (l : List SelEntry) : (ids (dedupeById l)).Nodup := by
  rw [dedupeById]
  have gen : ∀ m : List SelEntry, (ids m).Nodup → (ids (l.foldl mapSet m)).Nodup := by
    induction l with
    | nil => intro m hm; exact hm
    | cons e l ih =>
      intro m hm
      rw [List.foldl_cons]
      exact ih (mapSet m e) (ids_mapSet_nodup m e hm)
  exact gen [] (by simp [ids])

theorem foldl_mapSet_of_nodup (l : List SelEntry) :
    ∀ m : List SelEntry, (ids (m ++ l)).Nodup → l.foldl mapSet m = m ++ l := by
  induction l with
  | nil =>
    intro m _
    simp
  | cons e l ih =>
    intro m hm
    rw [List.foldl_cons]
    have hnp : ¬ m.any (fun x => x.tag.id == e.tag.id) = true := by
      intro hany
      rcases List.any_eq_true.mp hany with ⟨z, hz, hzid⟩
      rw [ids_append] at hm
      have hdisj := (List.nodup_append.mp hm).2.2
      refine hdisj (List.mem_map.mpr ⟨z, hz, rfl⟩) ?memr
      rw [ids_cons]
      exact List.mem_cons.mpr (Or.inl (by simpa using hzid))
    have hms : mapSet m e = m ++ [e] := by rw [mapSet, if_neg hnp]
    rw [hms, ih (m ++ [e]) (by simpa using hm)]
    simp

theorem dedupeById_eq_self (l : List SelEntry) (h : (ids l).Nodup) :
    dedupeById l = l := by
  rw [dedupeById]
  have := foldl_mapSet_of_nodup l [] (by simpa using h)
  simpa using this

theorem entry_mem_dedupeById (l : List SelEntry) (v : SelEntry)
    (huniq : ∀ e ∈ l, e.tag.id = v.tag.id → e = v) (hid : v.tag.id ∈ ids l) :
    v ∈ dedupeById l := by
  have h1 : v.tag.id ∈ ids (dedupeById l) := (mem_ids_dedupeById l v.tag.id).mpr hid
  rcases List.mem_map.mp h1 with ⟨e, he, heid⟩
  have he2 : e ∈ l := mem_of_mem_dedupeById l e he
  have : e = v := huniq e he2 heid
  exact this ▸ he

/-! ## `findById` lemmas -/

theorem findById_eq (all : List TagDef) (pid : Str) (pt : TagDef)
    (h : findById all pid = some pt) : pt.id = pid ∧ pt ∈ all := by
  refine ⟨?ident, List.mem_of_find?_eq_some h⟩
  have := List.find?_some h
  simpa using this

theorem findById_of_nodup (all : List TagDef) (t : TagDef)
    (hnd : (defIds all).Nodup) (ht : t ∈ all) : findById all t.id = some t := by
  induction all with
  | nil => exact absurd ht (List.not_mem_nil t)
  | cons u rest ih =>
    by_cases hu : (u.id == t.id) = true
    · rw [findById, List.find?_cons_of_pos rest hu]
      rcases List.mem_cons.mp ht with h1 | h2
      · rw [h1]
      · exfalso
        rw [defIds, List.map_cons, List.nodup_cons] at hnd
        refine hnd.1 ?memid
        rw [show u.id = t.id by simpa using hu]
        exact List.mem_map.mpr ⟨t, h2, rfl⟩
    · rw [findById, List.find?_cons_of_neg rest hu]
      rcases List.mem_cons.mp ht with h1 | h2
      · exact absurd (by rw [h1]; simp) hu
      · rw [defIds, List.map_cons, List.nodup_cons] at hnd
        exact ih hnd.2 h2

/-! ## Parent-walk lemmas

`chain` is the bare path of the walk; `topoParents` accumulates exactly its
elements on top of the accumulator. -/

theorem mem_topoParents (all : List TagDef) (f : Nat) (id : Str) (acc : List Str)
    (x : Str) : x ∈ topoParents all f id acc ↔ x ∈ acc ∨ x ∈ chain all f id := by
  induction f generalizing id acc with
  | zero => simp [topoParents, chain]
  | succ f ih =>
    rw [topoParents, chain]
    cases hstep : parentStep all id with
    | none => simp
    | some p =>
      rw [ih]
      have hacc : ∀ y, y ∈ (if acc.contains p then acc else acc ++ [p]) ↔
          y ∈ acc ∨ y = p := by
        intro y
        split
        case isTrue hc =>
          constructor
          · exact Or.inl
          · rintro (hy | hy)
            · exact hy
            · exact hy ▸ (by simpa using hc)
        case isFalse hc => simp
      rw [hacc, List.mem_cons]
      tauto

theorem chain_length_le (all : List TagDef) (f : Nat) (id : Str) :
    (chain all f id).length ≤ f := by
  induction f generalizing id with
  | zero => simp [chain]
  | succ f ih =>
    rw [chain]
    cases parentStep all id with
    | none => simp
    | some p =>
      rw [List.length_cons]
      exact Nat.succ_le_succ (ih p)

theorem chain_prefix_mono (all : List TagDef) (f g : Nat) (id : Str) (h : f ≤ g) :
    chain all f id <+: chain all g id := by
  induction f generalizing g id with
  | zero => simp [chain]
  | succ f ih =>
    cases g with
    | zero => omega
    | succ g =>
      rw [chain, chain]
      cases parentStep all id with
      | none => simp
      | some p =>
        rcases ih g p (by omega) with ⟨t, ht⟩
        exact ⟨t, by rw [List.cons_append, ht]⟩

theorem chain_suffix_of_mem (all : List TagDef) (g : Nat) (id p : Str)
    (h : p ∈ chain all g id) :
    ∃ j k, g = j + 1 + k ∧ j + 1 ≤ (chain all g id).length ∧
      chain all k p <:+ chain all g id := by
  induction g generalizing id with
  | zero => simp [chain] at h
  | succ g ih =>
    rw [chain] at h ⊢
    cases hstep : parentStep all id with
    | none =>
      rw [hstep] at h
      simp at h
    | some p1 =>
      rw [hstep] at h
      rcases List.mem_cons.mp h with h1 | h2
      · subst h1
        exact ⟨0, g, by omega, by simp, List.suffix_cons p (chain all g p)⟩
      · rcases ih p1 h2 with ⟨j, k, hg, hlen, hsuf⟩
        exact ⟨j + 1, k, by omega, by rw [List.length_cons]; omega,
          hsuf.trans (List.suffix_cons p1 (chain all g p1))⟩

/-- Under the stabilization hypothesis for `id`, the chain from any member
of `id`'s chain stays inside `id`'s chain (with the same fuel). -/
theorem chain_closure (all : List TagDef) (N : Nat) (id p : Str)
    (hstab : chain all (N + N) id = chain all N id) (hp : p ∈ chain all N id) :
    ∀ x ∈ chain all N p, x ∈ chain all N id := by
  intro x hx
  have hp2 : p ∈ chain all (N + N) id := hstab ▸ hp
  rcases chain_suffix_of_mem all (N + N) id p hp2 with ⟨j, k, hg, hlen, hsuf⟩
  rw [hstab] at hlen hsuf
  have hlenN := chain_length_le all N id
  have hkN : N ≤ k := by omega
  have hxk : x ∈ chain all k p := (chain_prefix_mono all N k p hkN).subset hx
  exact hsuf.subset hxk

/-! ## Enforcement lemmas -/

theorem isPrefixOf_append_self (l r : Str) : l.isPrefixOf (l ++ r) = true := by
  induction l with
  | nil => simp [List.isPrefixOf]
  | cons c l ih => simp [List.isPrefixOf, ih]

theorem mem_iff_contains {α : Type} [BEq α] [LawfulBEq α] (l : List α) (x : α) :
    x ∈ l ↔ l.contains x = true := by
  rw [List.contains_eq_any_beq, List.any_eq_true]
  constructor
  · intro h
    exact ⟨x, h, by simp⟩
  · rintro ⟨y, hy, hxy⟩
    rw [show x = y by simpa using hxy]
    exact hy

theorem not_mem_iff_contains_false {α : Type} [BEq α] [LawfulBEq α]
    (l : List α) (x : α) : x ∉ l ↔ l.contains x = false := by
  rw [mem_iff_contains]
  simp

theorem mem_toAddParents (selected : List SelEntry) (all : List TagDef) (pid : Str) :
    pid ∈ toAddParents selected all ↔
      ∃ s ∈ selected, pid ∈ topoParentsRun all s.tag.id ∧ pid ∉ ids selected := by
  rw [toAddParents, List.mem_flatMap]
  constructor
  · rintro ⟨s, hs, hmem⟩
    rw [List.mem_filter] at hmem
    refine ⟨s, hs, hmem.1, ?notmem⟩
    have := hmem.2
    rw [not_mem_iff_contains_false]
    simpa using this
  · rintro ⟨s, hs, h1, h2⟩
    refine ⟨s, hs, List.mem_filter.mpr ⟨h1, ?cond⟩⟩
    simp only [Bool.not_eq_true']
    exact (not_mem_iff_contains_false _ _).mp h2

theorem entryFor_mem_parentAdds (selected : List SelEntry) (all : List TagDef)
    (pid : Str) (pt : TagDef) (h1 : pid ∈ toAddParents selected all)
    (h2 : findById all pid = some pt) (h3 : pid ∉ ids selected) :
    entryFor pt ∈ parentAdds selected all := by
  rw [parentAdds]
  refine List.mem_filterMap.mpr ⟨pid, h1, ?fm⟩
  rw [h2]
  have h3f := (not_mem_iff_contains_false _ _).mp h3
  simp only [h3f]
  rfl

theorem mem_parentAdds (selected : List SelEntry) (all : List TagDef) (e : SelEntry)
    (h : e ∈ parentAdds selected all) :
    ∃ pid pt, pid ∈ toAddParents selected all ∧ findById all pid = some pt ∧
      pid ∉ ids selected ∧ e = entryFor pt := by
  rw [parentAdds] at h
  rcases List.mem_filterMap.mp h with ⟨pid, hpid, hfm⟩
  split at hfm
  next pt hfind =>
    split at hfm
    next hc => exact absurd hfm (by simp)
    next hc =>
      refine ⟨pid, pt, hpid, hfind, ?notmem, (Option.some_inj.mp hfm).symm⟩
      rw [not_mem_iff_contains_false]
      simpa using hc
  next hfind => exact absurd hfm (by simp)

theorem entryFor_mem_mandAdds (selected : List SelEntry) (all : List TagDef)
    (t : TagDef) (ht : t ∈ all) (hty : t.type = TagType.mandatory)
    (hid : t.id ∉ ids selected) : entryFor t ∈ mandAdds selected all := by
  rw [mandAdds]
  refine List.mem_filterMap.mpr ⟨t, List.mem_filter.mpr ⟨ht, by simp [hty]⟩, ?fm⟩
  have hidf := (not_mem_iff_contains_false _ _).mp hid
  simp only [hidf]
  rfl

theorem mem_mandAdds (selected : List SelEntry) (all : List TagDef) (e : SelEntry)
    (h : e ∈ mandAdds selected all) :
    ∃ t ∈ all, t.type = TagType.mandatory ∧ t.id ∉ ids selected ∧ e = entryFor t := by
  rw [mandAdds] at h
  rcases List.mem_filterMap.mp h with ⟨t, hpid, hfm⟩
  rw [List.mem_filter] at hpid
  split at hfm
  next hc => exact absurd hfm (by simp)
  next hc =>
    refine ⟨t, hpid.1, by simpa using hpid.2, ?notmem, (Option.some_inj.mp hfm).symm⟩
    rw [not_mem_iff_contains_false]
    simpa using hc

theorem mem_enforce_cases (selected : List SelEntry) (all : List TagDef)
    (e : SelEntry) (h : e ∈ enforceParentAndMandatory selected all) :
    e ∈ selected ∨ e ∈ parentAdds selected all ∨ e ∈ mandAdds selected all := by
  rw [enforceParentAndMandatory] at h
  have := mem_of_mem_dedupeById _ e h
  rcases List.mem_append.mp this with h1 | h2
  · rcases List.mem_append.mp h1 with h3 | h4
    · exact Or.inl h3
    · exact Or.inr (Or.inl h4)
  · exact Or.inr (Or.inr h2)

theorem mem_ids_enforce (selected : List SelEntry) (all : List TagDef) (x : Str) :
    x ∈ ids (enforceParentAndMandatory selected all) ↔
      x ∈ ids selected ∨ x ∈ ids (parentAdds selected all)
        ∨ x ∈ ids (mandAdds selected all) := by
  rw [enforceParentAndMandatory, mem_ids_dedupeById, ids_append, ids_append]
  simp

/-! ## Claim C2: ancestor closure -/

/-- C2 counterexample: with vocabulary `[q, m]` where `m` is mandatory with
parent `q`, `enforceParentAndMandatory [] [q, m]` contains the entry for `m`,
whose parent `q` exists in the vocabulary, yet no entry with id `q` is in the
result: the mandatory loop does not add the parents of the definitions it
adds, so the claimed closure fails for an entry of the result. -/
theorem enforce_ancestor_closure_fails :
    ∃ e ∈ enforceParentAndMandatory [] [qDef, mDef],
      e.tag.parent = some ("q".data) ∧ ("q".data : Str) ≠ [] ∧
      (findById [qDef, mDef] ("q".data)).isSome = true ∧
      ("q".data) ∉ ids (enforceParentAndMandatory [] [qDef, mDef]) := by
  decide

/-- C2 (amended): the ancestor closure holds for the entries of the input
selection: for every input entry `s`, every id the parent walk collects from
`s.tag.id` that exists in the vocabulary is present in the result.  (Entries
added by the mandatory loop are not closed under parents, as the
counterexample shows.) -/
theorem enforce_ancestor_closure_of_selected (S : List SelEntry) (V : List TagDef)
    (s : SelEntry) (pid : Str) (hs : s ∈ S)
    (hpid : pid ∈ topoParentsRun V s.tag.id) (hfound : (findById V pid).isSome) :
    pid ∈ ids (enforceParentAndMandatory S V) := by
  by_cases hmem : pid ∈ ids S
  · exact (mem_ids_enforce S V pid).mpr (Or.inl hmem)
  · obtain ⟨pt, hpt⟩ := Option.isSome_iff_exists.mp hfound
    have htap : pid ∈ toAddParents S V :=
      (mem_toAddParents S V pid).mpr ⟨s, hs, hpid, hmem⟩
    have hpa := entryFor_mem_parentAdds S V pid pt htap hpt hmem
    refine (mem_ids_enforce S V pid).mpr (Or.inr (Or.inl ?memids))
    have hptid : pt.id = pid := (findById_eq V pid pt hpt).1
    exact List.mem_map.mpr ⟨entryFor pt, hpa, by simp [entryFor, hptid]⟩

/-- Witness for the amended C2 at a concrete input: selecting `lead` (whose
parent is `vocal`) makes the walk collect `vocal`, which is then present in
the enforced result. -/
theorem enforce_ancestor_closure_of_selected_witness :
    (⟨leadDef, none⟩ : SelEntry) ∈ [(⟨leadDef, none⟩ : SelEntry)] ∧
    "vocal".data ∈ topoParentsRun [vocalDef, leadDef] leadDef.id ∧
    (findById [vocalDef, leadDef] ("vocal".data)).isSome = true ∧
    "vocal".data ∈
      ids (enforceParentAndMandatory [⟨leadDef, none⟩] [vocalDef, leadDef]) :=
  ⟨by decide, by decide, by decide,
    enforce_ancestor_closure_of_selected [⟨leadDef, none⟩] [vocalDef, leadDef]
      ⟨leadDef, none⟩ ("vocal".data) (by decide) (by decide) (by decide)⟩

/-! ## Claim C3: mandatory closure -/

/-- C3: for a vocabulary with pairwise-distinct ids, every mandatory
definition is present in the enforced result; when its id was not in the
input selection, the result contains exactly the entry with amount `0` if
the definition has an amount range and `null` otherwise. -/
theorem enforce_mandatory_closure (S : List SelEntry) (V : List TagDef)
    (t : TagDef) (hnd : (defIds V).Nodup) (ht : t ∈ V)
    (hty : t.type = TagType.mandatory) :
    t.id ∈ ids (enforceParentAndMandatory S V) ∧
      (t.id ∉ ids S → entryFor t ∈ enforceParentAndMandatory S V) := by
  constructor
  · by_cases hmem : t.id ∈ ids S
    · exact (mem_ids_enforce S V t.id).mpr (Or.inl hmem)
    · refine (mem_ids_enforce S V t.id).mpr (Or.inr (Or.inr ?memids))
      exact List.mem_map.mpr
        ⟨entryFor t, entryFor_mem_mandAdds S V t ht hty hmem, by simp [entryFor]⟩
  · intro hnotin
    rw [enforceParentAndMandatory]
    apply entry_mem_dedupeById
    · intro e he hid
      have hid' : e.tag.id = t.id := by simpa [entryFor] using hid
      rcases List.mem_append.mp he with h1 | hM
      · rcases List.mem_append.mp h1 with hS | hP
        · exact absurd (List.mem_map.mpr ⟨e, hS, hid'⟩) hnotin
        · rcases mem_parentAdds S V e hP with ⟨pid, pt, _, hfind, _, rfl⟩
          have hptid : pt.id = pid := (findById_eq V pid pt hfind).1
          have h1 : pt.id = t.id := by simpa [entryFor] using hid
          have hpid_t : pid = t.id := by rw [hptid] at h1; exact h1
          have hfind2 : findById V t.id = some pt := by rw [← hpid_t]; exact hfind
          rw [findById_of_nodup V t hnd ht] at hfind2
          rw [Option.some_inj.mp hfind2]
      · rcases mem_mandAdds S V e hM with ⟨u, hu, _, _, rfl⟩
        have huid : u.id = t.id := by simpa [entryFor] using hid
        rw [List.inj_on_of_nodup_map hnd hu ht huid]
    · have hmand : entryFor t ∈ mandAdds S V := entryFor_mem_mandAdds S V t ht hty hnotin
      rw [ids_append, ids_append]
      refine List.mem_append.mpr (Or.inr ?memids2)
      exact List.mem_map.mpr ⟨entryFor t, hmand, rfl⟩

/-- Witness for C3 at a concrete input: the mandatory `reviewed` tag is added
to an empty selection. -/
theorem enforce_mandatory_closure_witness :
    (defIds [vocalDef, reviewedDef]).Nodup ∧
    reviewedDef ∈ [vocalDef, reviewedDef] ∧
    reviewedDef.type = TagType.mandatory ∧
    (reviewedDef.id ∈ ids (enforceParentAndMandatory [] [vocalDef, reviewedDef]) ∧
      (reviewedDef.id ∉ ids ([] : List SelEntry) →
        entryFor reviewedDef ∈ enforceParentAndMandatory [] [vocalDef, reviewedDef])) :=
  ⟨by decide, by decide, by decide,
    enforce_mandatory_closure [] [vocalDef, reviewedDef] reviewedDef
      (by decide) (by decide) (by decide)⟩

/-! ## Claim C4: idempotent enforcement -/

theorem mem_topoParentsRun (all : List TagDef) (id x : Str) :
    x ∈ topoParentsRun all id ↔ x ∈ chain all (all.length + 1) id := by
  rw [topoParentsRun, mem_topoParents]
  simp

theorem chain_eq_nil_of_step_none (all : List TagDef) (f : Nat) (id : Str)
    (h : parentStep all id = none) : chain all f id = [] := by
  cases f with
  | zero => rfl
  | succ f => rw [chain, h]

theorem parentStep_none_of_falsy (all : List TagDef) (t : TagDef)
    (hnd : (defIds all).Nodup) (ht : t ∈ all)
    (hp : t.parent = none ∨ t.parent = some []) : parentStep all t.id = none := by
  rcases hp with h | h <;>
    simp [parentStep, findById_of_nodup all t hnd ht, h]

/-- Every entry of an enforced result has its own found ancestors inside the
result, provided the vocabulary has unique ids, mandatory definitions have
falsy parents, and the parent walks from the selected ids stabilize within
the fuel budget (as they do whenever the source terminates). -/
theorem enforce_result_parents_closed (S : List SelEntry) (V : List TagDef)
    (hnd : (defIds V).Nodup)
    (hm : ∀ t ∈ V, t.type = TagType.mandatory → t.parent = none ∨ t.parent = some [])
    (hstab : ∀ s ∈ S, chain V ((V.length + 1) + (V.length + 1)) s.tag.id
      = chain V (V.length + 1) s.tag.id)
    (r : SelEntry) (hr : r ∈ enforceParentAndMandatory S V) (pid : Str)
    (hpid : pid ∈ topoParentsRun V r.tag.id) (hfound : (findById V pid).isSome) :
    pid ∈ ids (enforceParentAndMandatory S V) := by
  rcases mem_enforce_cases S V r hr with hS | hP | hM
  · exact enforce_ancestor_closure_of_selected S V r pid hS hpid hfound
  · rcases mem_parentAdds S V r hP with ⟨pid0, pt, htap, hfind, _, rfl⟩
    rcases (mem_toAddParents S V pid0).mp htap with ⟨s, hs, hpid0, _⟩
    have hptid : pt.id = pid0 := (findById_eq V pid0 pt hfind).1
    have hpid' : pid ∈ chain V (V.length + 1) pid0 := by
      rw [← hptid]
      exact (mem_topoParentsRun V pt.id pid).mp (by simpa [entryFor] using hpid)
    have hpid0c : pid0 ∈ chain V (V.length + 1) s.tag.id :=
      (mem_topoParentsRun V s.tag.id pid0).mp hpid0
    have hin : pid ∈ chain V (V.length + 1) s.tag.id :=
      chain_closure V (V.length + 1) s.tag.id pid0 (hstab s hs) hpid0c pid hpid'
    exact enforce_ancestor_closure_of_selected S V s pid hs
      ((mem_topoParentsRun V s.tag.id pid).mpr hin) hfound
  · exfalso
    rcases mem_mandAdds S V r hM with ⟨u, hu, huty, _, rfl⟩
    have hstep : parentStep V u.id = none :=
      parentStep_none_of_falsy V u hnd hu (hm u hu huty)
    have : pid ∈ chain V (V.length + 1) u.id :=
      (mem_topoParentsRun V u.id pid).mp (by simpa [entryFor] using hpid)
    rw [chain_eq_nil_of_step_none V _ u.id hstep] at this
    exact List.not_mem_nil pid this

/-- C4 counterexample: with vocabulary `[q, m]` (`m` mandatory with parent
`q`) and the empty selection, enforcing twice adds `q` (the parent of the
mandatory tag added by the first pass), which the first pass did not add, so
the two results differ as sets of `(id, amount)` pairs. -/
theorem enforce_idempotent_fails :
    ("q".data, (none : Option Int)) ∈
      (enforceParentAndMandatory (enforceParentAndMandatory [] [qDef, mDef])
        [qDef, mDef]).map idAmount ∧
    ("q".data, (none : Option Int)) ∉
      (enforceParentAndMandatory [] [qDef, mDef]).map idAmount := by
  decide

/-- C4 (amended): enforcement is idempotent — indeed a second pass returns
its input unchanged — provided the vocabulary has pairwise-distinct ids,
every mandatory definition has a falsy parent (the counterexample shows the
claim fails otherwise), and the parent walks from the selected ids stabilize
within the fuel budget (which holds whenever the source terminates). -/
theorem enforce_idempotent (S : List SelEntry) (V : List TagDef)
    (hnd : (defIds V).Nodup)
    (hm : ∀ t ∈ V, t.type = TagType.mandatory → t.parent = none ∨ t.parent = some [])
    (hstab : ∀ s ∈ S, chain V ((V.length + 1) + (V.length + 1)) s.tag.id
      = chain V (V.length + 1) s.tag.id) :
    enforceParentAndMandatory (enforceParentAndMandatory S V) V
      = enforceParentAndMandatory S V := by
  have hPA : parentAdds (enforceParentAndMandatory S V) V = [] := by
    rw [parentAdds]
    apply List.filterMap_eq_nil_iff.mpr
    intro pid hpid
    rcases (mem_toAddParents _ V pid).mp hpid with ⟨r, hr, hmemtp, hnotin⟩
    cases hfind : findById V pid with
    | none => rfl
    | some pt =>
      exfalso
      exact hnotin (enforce_result_parents_closed S V hnd hm hstab r hr pid hmemtp
        (by rw [hfind]; rfl))
  have hMA : mandAdds (enforceParentAndMandatory S V) V = [] := by
    rw [mandAdds]
    apply List.filterMap_eq_nil_iff.mpr
    intro t hfilter
    rw [List.mem_filter] at hfilter
    have hin : t.id ∈ ids (enforceParentAndMandatory S V) :=
      (enforce_mandatory_closure S V t hnd hfilter.1 (by simpa using hfilter.2)).1
    rw [if_pos ((mem_iff_contains _ _).mp hin)]
  have hnodup : (ids (enforceParentAndMandatory S V)).Nodup := by
    rw [show enforceParentAndMandatory S V
      = dedupeById (S ++ parentAdds S V ++ mandAdds S V) from rfl]
    exact ids_dedupeById_nodup _
  conv_lhs => rw [enforceParentAndMandatory, hPA, hMA]
  rw [List.append_nil, List.append_nil]
  exact dedupeById_eq_self _ hnodup

/-- Witness for the amended C4 at a concrete input: a vocabulary with a
parent chain and a parentless mandatory tag, and a selection of `lead`. -/
theorem enforce_idempotent_witness :
    (defIds [vocalDef, leadDef, reviewedDef]).Nodup ∧
    (∀ t ∈ [vocalDef, leadDef, reviewedDef], t.type = TagType.mandatory →
      t.parent = none ∨ t.parent = some []) ∧
    (∀ s ∈ [(⟨leadDef, none⟩ : SelEntry)],
      chain [vocalDef, leadDef, reviewedDef] 8 s.tag.id
        = chain [vocalDef, leadDef, reviewedDef] 4 s.tag.id) ∧
    enforceParentAndMandatory
        (enforceParentAndMandatory [⟨leadDef, none⟩] [vocalDef, leadDef, reviewedDef])
        [vocalDef, leadDef, reviewedDef]
      = enforceParentAndMandatory [⟨leadDef, none⟩] [vocalDef, leadDef, reviewedDef] :=
  ⟨by decide, by decide, by decide,
    enforce_idempotent [⟨leadDef, none⟩] [vocalDef, leadDef, reviewedDef]
      (by decide) (by decide) (by decide)⟩

/-! ## Claim C5: token matching semantics -/

theorem amountOf_some_isSome (t : TagDef) (tok : Str) (a : Int)
    (h : amountOf t tok = some a) : t.amountRange.isSome = true := by
  by_cases hr : (t.amountRange.isSome && t.name.isPrefixOf tok
      && isDigitStr (tok.drop t.name.length)) = true
  · simp only [Bool.and_eq_true] at hr
    exact hr.1.1
  · exfalso
    have hnone : amountOf t tok = none := by simp [amountOf, hr]
    rw [hnone] at h
    exact Option.noConfusion h

theorem tokenToTagMatch_eq_matchSpec (tok : Str) (V : List TagDef) :
    tokenToTagMatch tok V = matchSpec tok V := by
  induction V with
  | nil => rfl
  | cons t rest ih =>
    by_cases hcap : captures t tok = true
    · rw [tokenToTagMatch, matchSpec, List.find?_cons_of_pos rest hcap]
      by_cases hr : (t.amountRange.isSome && t.name.isPrefixOf tok
          && isDigitStr (tok.drop t.name.length)) = true
      · rw [if_pos hr]
        simp [amountOf, hr]
      · have heq : tok = t.name := by
          rw [captures, Bool.or_eq_true] at hcap
          rcases hcap with h | h
          · exact absurd h hr
          · simpa using h
        rw [if_neg hr, if_pos heq]
        simp [amountOf, hr]
    · have hcapf : captures t tok = false := by simpa using hcap
      rw [captures, Bool.or_eq_false_iff] at hcapf
      rw [tokenToTagMatch, matchSpec, List.find?_cons_of_neg rest hcap,
        if_neg (by simp [hcapf.1]), if_neg (by simpa using hcapf.2), ih, matchSpec]

/-- C5 counterexample: a definition with an amount range also matches its
bare name, returning a `null` amount — so "amount non-null iff the matched
definition has an amountRange" fails, as does "an amount-range definition
matches exactly when the token is its name followed by digits". -/
theorem tokenToTagMatch_amount_iff_fails :
    tokenToTagMatch ("energy".data) [energyDef]
        = (some energyDef, (none : Option Int)) ∧
    energyDef.amountRange.isSome = true := by
  decide

/-- C5 (amended): `tokenToTagMatch` scans the vocabulary in order and
returns the first definition that matches, where an amount-range definition
matches its name followed by one or more digits (amount = the parsed suffix)
and ANY definition (amount-range ones included) matches its exact name with
a null amount; no match yields `(none, none)`; and a non-null amount implies
the matched definition has an amount range (the converse direction of the
claimed iff is false). -/
theorem tokenToTagMatch_spec (tok : Str) (V : List TagDef) :
    tokenToTagMatch tok V = matchSpec tok V ∧
    (∀ t a, tokenToTagMatch tok V = (some t, some a) → t.amountRange.isSome = true) := by
  refine ⟨tokenToTagMatch_eq_matchSpec tok V, ?amt⟩
  intro t a h
  rw [tokenToTagMatch_eq_matchSpec tok V, matchSpec] at h
  cases hfind : V.find? (fun u => captures u tok) with
  | none =>
    rw [hfind] at h
    exact absurd h (by simp)
  | some u =>
    rw [hfind] at h
    have ht : u = t := by
      have := congrArg Prod.fst h
      simpa using this
    have ha : amountOf u tok = some a := by
      have := congrArg Prod.snd h
      simpa using this
    exact ht ▸ amountOf_some_isSome u tok a ha

/-- Witness for C5's implication at a concrete input: the match for
"energy7" carries a non-null amount and the matched definition indeed has an
amount range. -/
theorem tokenToTagMatch_spec_witness :
    energyDef.amountRange.isSome = true :=
  (tokenToTagMatch_spec ("energy7".data) [energyDef]).2 energyDef 7 (by decide)

/-! ## Claim C6: main-tag gate -/

theorem ensureAtLeastOneMain_iff (L : List SelEntry) (V : List TagDef) :
    ensureAtLeastOneMain L V = true ↔
      (∃ e ∈ L, e.tag.type = TagType.main) ∨ (∀ t ∈ V, t.type ≠ TagType.main) := by
  rw [ensureAtLeastOneMain, Bool.or_eq_true, List.any_eq_true]
  simp [List.length_eq_zero, List.filter_eq_nil_iff]

/-- C6: `ensureAtLeastOneMain` returns true iff the selection contains a
main-classified entry or the vocabulary has no main-classified definition;
on the empty selection it returns false exactly when the vocabulary has at
least one main-classified definition. -/
theorem ensureAtLeastOneMain_spec (L : List SelEntry) (V : List TagDef) :
    (ensureAtLeastOneMain L V = true ↔
      (∃ e ∈ L, e.tag.type = TagType.main) ∨ (∀ t ∈ V, t.type ≠ TagType.main)) ∧
    (ensureAtLeastOneMain [] V = false ↔ ∃ t ∈ V, t.type = TagType.main) := by
  refine ⟨ensureAtLeastOneMain_iff L V, ?emptyiff⟩
  constructor
  · intro hfalse
    by_contra hno
    have hall : ∀ t ∈ V, t.type ≠ TagType.main := by
      intro t ht hty
      exact hno ⟨t, ht, hty⟩
    have := (ensureAtLeastOneMain_iff [] V).mpr (Or.inr hall)
    rw [hfalse] at this
    exact Bool.noConfusion this
  · rintro ⟨t, ht, hty⟩
    cases hmain : ensureAtLeastOneMain [] V with
    | false => rfl
    | true =>
      exfalso
      rcases (ensureAtLeastOneMain_iff [] V).mp hmain with ⟨e, he, _⟩ | hall
      · exact List.not_mem_nil e he
      · exact hall t ht hty

/-- Witness for C6 at concrete inputs: the empty vocabulary passes the gate
vacuously, and a vocabulary with a main tag fails it on the empty
selection. -/
theorem ensureAtLeastOneMain_spec_witness :
    ensureAtLeastOneMain [] ([] : List TagDef) = true ∧
    ensureAtLeastOneMain [] [leadDef] = false :=
  ⟨((ensureAtLeastOneMain_spec [] []).1).mpr (Or.inr (by simp)),
    ((ensureAtLeastOneMain_spec [] [leadDef]).2).mpr ⟨leadDef, by decide, by decide⟩⟩

/-! ## Claim C7: name validation -/

/-- C7: `validateTagName` throws exactly on names that are empty, contain
whitespace, or contain a semicolon; in particular "a b", "a;b" and "" are
rejected and "a_b-2" is accepted. -/
theorem validateTagName_spec :
    (∀ name : Str, validateTagName name = Except.ok () ↔
      ¬(name = [] ∨ (∃ c ∈ name, isWsp c = true) ∨ ';' ∈ name)) ∧
    validateTagName ("a b".data) ≠ Except.ok () ∧
    validateTagName ("a;b".data) ≠ Except.ok () ∧
    validateTagName ([] : Str) ≠ Except.ok () ∧
    validateTagName ("a_b-2".data) = Except.ok () := by
  refine ⟨?main, by decide, by decide, by decide, by decide⟩
  intro name
  rw [validateTagName]
  by_cases h1 : name = []
  · rw [if_pos h1]
    constructor
    · intro h
      exact Except.noConfusion h
    · intro h
      exact absurd (Or.inl h1) h
  · rw [if_neg h1]
    by_cases h2 : name.any isWsp = true
    · rw [if_pos h2]
      rcases List.any_eq_true.mp h2 with ⟨c, hc, hw⟩
      constructor
      · intro h
        exact Except.noConfusion h
      · intro h
        exact absurd (Or.inr (Or.inl ⟨c, hc, hw⟩)) h
    · rw [if_neg h2]
      by_cases h3 : name.contains ';' = true
      · rw [if_pos h3]
        constructor
        · intro h
          exact Except.noConfusion h
        · intro h
          exact absurd (Or.inr (Or.inr ((mem_iff_contains name ';').mpr h3))) h
      · rw [if_neg h3]
        constructor
        · intro _
          rintro (h | ⟨c, hc, hw⟩ | h)
          · exact h1 h
          · exact absurd (List.any_eq_true.mpr ⟨c, hc, hw⟩) h2
          · exact absurd ((mem_iff_contains name ';').mp h) (by simpa using h3)
        · intro _
          rfl

/-- Witness for C7's characterization at a concrete input: "ok" passes
validation. -/
theorem validateTagName_spec_witness :
    validateTagName ("ok".data) = Except.ok () :=
  (validateTagName_spec.1 ("ok".data)).mpr (by decide)

/-! ## Claim C9: lenient vocabulary loading -/

/-- C9: `coerceTagsFile` is total (the embedding is a function with no error
outcome, as the source has no throwing branch): a falsy input or a non-array
`tags` field yields the empty vocabulary; otherwise the tags are returned as
given, with `version` taken from the input when it is a number and equal to
`TAGS_SCHEMA_VERSION` when absent or malformed. -/
theorem coerceTagsFile_spec :
    (coerceTagsFile none = emptyTags) ∧
    (∀ f : RawTagsFile, f.tags = none → coerceTagsFile (some f) = emptyTags) ∧
    (∀ (f : RawTagsFile) (ts : List TagDef) (n : Int), f.tags = some ts →
      f.version = VersionField.num n →
      coerceTagsFile (some f) = { version := n, tags := ts }) ∧
    (∀ (f : RawTagsFile) (ts : List TagDef), f.tags = some ts →
      f.version = VersionField.other →
      coerceTagsFile (some f) = { version := TAGS_SCHEMA_VERSION, tags := ts }) := by
  refine ⟨rfl, ?misstags, ?vnum, ?vother⟩
  · intro f h
    simp [coerceTagsFile, h]
  · intro f ts n hts hv
    simp [coerceTagsFile, hts, hv]
  · intro f ts hts hv
    simp [coerceTagsFile, hts, hv]

/-- Witness for C9 at a concrete input: a file with a numeric version and a
tags array is passed through unchanged. -/
theorem coerceTagsFile_spec_witness :
    coerceTagsFile (some ⟨some [vocalDef], VersionField.num 3⟩)
      = { version := 3, tags := [vocalDef] } :=
  coerceTagsFile_spec.2.2.1 ⟨some [vocalDef], VersionField.num 3⟩ [vocalDef] 3 rfl rfl

/-! ## Claim C10: decode and unknown-token classification disagree -/

/-- C10: with the amount-range definition `energy` (range 0..10) and comment
"energy99", `parseCommentToTags` recognizes the token as `(energy, 99)`
while `unknownTokensFromComment` lists the very same token as unknown,
because `isRecognizedToken` checks the range and `tokenToTagMatch` does
not. -/
theorem decode_vs_unknown_disagree :
    parseCommentToTags ("energy99".data) [energyDef]
        = [⟨energyDef, some 99⟩] ∧
    unknownTokensFromComment ("energy99".data) [energyDef]
        = ["energy99".data] := by
  decide

/-! ## Claim C1: encode/decode round-trip -/

theorem entryToken_range (s : SelEntry) (a : Int)
    (hr : s.tag.amountRange.isSome = true) (ha : s.amount = some a) (hnn : 0 ≤ a) :
    entryToken s = s.tag.name ++ natToChars a.toNat := by
  rw [entryToken, if_pos hr, ha, Option.getD_some, intToChars_nonneg a hnn]

theorem entryToken_plain (s : SelEntry) (hr : s.tag.amountRange.isSome = false) :
    entryToken s = s.tag.name := by
  rw [entryToken, hr]
  simp

/-- An encoded token is well formed when the name is valid and the amount is
a non-negative integer. -/
theorem entryToken_wf (s : SelEntry) (hname : validName s.tag.name = true)
    (hamt : s.amount.isSome = s.tag.amountRange.isSome)
    (hnn : ∀ a, s.amount = some a → 0 ≤ a) :
    entryToken s ≠ [] ∧ ';' ∉ entryToken s ∧ trim (entryToken s) = entryToken s := by
  rw [validName] at hname
  simp only [Bool.and_eq_true, Bool.not_eq_true'] at hname
  obtain ⟨⟨hne, hws⟩, hsemi⟩ := hname
  have hnamene : s.tag.name ≠ [] := by simpa [List.isEmpty_iff] using hne
  have hnamews : ∀ c ∈ s.tag.name, isWsp c = false := by
    intro c hc
    by_contra hw
    simp only [Bool.not_eq_false] at hw
    exact absurd (List.any_eq_true.mpr ⟨c, hc, hw⟩) (by simp [hws])
  have hnamesemi : ';' ∉ s.tag.name := by
    rw [mem_iff_contains, hsemi]
    simp
  cases hr : s.tag.amountRange.isSome with
  | false =>
    rw [entryToken_plain s hr]
    exact ⟨hnamene, hnamesemi, trim_eq_self _ hnamews⟩
  | true =>
    obtain ⟨a, ha⟩ := Option.isSome_iff_exists.mp (hamt.trans hr)
    rw [entryToken_range s a hr ha (hnn a ha)]
    refine ⟨by simp [hnamene], ?semi, ?trime⟩
    · intro hm
      rcases List.mem_append.mp hm with h | h
      · exact hnamesemi h
      · exact natToChars_no_semi a.toNat h
    · refine trim_eq_self _ ?nows
      intro c hc
      rcases List.mem_append.mp hc with h | h
      · exact hnamews c h
      · exact natToChars_no_wsp a.toNat c h

/-- The entry's own definition captures its encoded token. -/
theorem captures_self (s : SelEntry)
    (hamt : s.amount.isSome = s.tag.amountRange.isSome)
    (hnn : ∀ a, s.amount = some a → 0 ≤ a) :
    captures s.tag (entryToken s) = true := by
  cases hr : s.tag.amountRange.isSome with
  | false =>
    rw [captures, entryToken_plain s hr]
    simp
  | true =>
    obtain ⟨a, ha⟩ := Option.isSome_iff_exists.mp (hamt.trans hr)
    rw [captures, entryToken_range s a hr ha (hnn a ha), Bool.or_eq_true]
    left
    rw [hr]
    have hpre : s.tag.name.isPrefixOf (s.tag.name ++ natToChars a.toNat) = true :=
      isPrefixOf_append_self _ _
    rw [hpre]
    have hdrop : (s.tag.name ++ natToChars a.toNat).drop s.tag.name.length
        = natToChars a.toNat := List.drop_left _ _
    rw [hdrop, isDigitStr_natToChars]
    rfl

/-- The entry's own definition yields back exactly the entry's amount. -/
theorem amountOf_self (s : SelEntry)
    (hamt : s.amount.isSome = s.tag.amountRange.isSome)
    (hnn : ∀ a, s.amount = some a → 0 ≤ a) :
    amountOf s.tag (entryToken s) = s.amount := by
  cases hr : s.tag.amountRange.isSome with
  | false =>
    have hnone : s.amount = none := by
      cases hs : s.amount with
      | none => rfl
      | some a => rw [hs] at hamt; rw [hr] at hamt; exact absurd hamt (by simp)
    rw [amountOf, if_neg (by simp [hr]), hnone]
  | true =>
    obtain ⟨a, ha⟩ := Option.isSome_iff_exists.mp (hamt.trans hr)
    have hcap := captures_self s hamt hnn
    rw [captures, Bool.or_eq_true] at hcap
    rw [entryToken_range s a hr ha (hnn a ha)] at hcap ⊢
    have hdrop : (s.tag.name ++ natToChars a.toNat).drop s.tag.name.length
        = natToChars a.toNat := List.drop_left _ _
    have hhit : (s.tag.amountRange.isSome
        && s.tag.name.isPrefixOf (s.tag.name ++ natToChars a.toNat)
        && isDigitStr ((s.tag.name ++ natToChars a.toNat).drop s.tag.name.length))
        = true := by
      rw [hr, hdrop, isDigitStr_natToChars,
        isPrefixOf_append_self _ _]
      rfl
    rw [amountOf, if_pos hhit, hdrop, parseDigits_natToChars, ha]
    rw [show (Int.ofNat a.toNat) = a from Int.toNat_of_nonneg (hnn a ha)]

/-- When no other definition captures a token that its own definition
captures, the vocabulary scan finds exactly that definition. -/
theorem find_captures_self (V : List TagDef) (t0 : TagDef) (tok : Str)
    (hmem : t0 ∈ V) (hself : captures t0 tok = true)
    (hnocap : ∀ t ∈ V, captures t tok = true → t = t0) :
    V.find? (fun t => captures t tok) = some t0 := by
  induction V with
  | nil => exact absurd hmem (List.not_mem_nil t0)
  | cons u rest ih =>
    by_cases hc : captures u tok = true
    · rw [List.find?_cons_of_pos rest hc, hnocap u (List.mem_cons_self u rest) hc]
    · rw [List.find?_cons_of_neg rest hc]
      rcases List.mem_cons.mp hmem with h1 | h2
      · exact absurd (h1 ▸ hself) hc
      · exact ih h2 (fun t ht hcap => hnocap t (List.mem_cons_of_mem u ht) hcap)

theorem filterMap_eq_self_of {α : Type} (l : List α) (f : α → Option α)
    (h : ∀ x ∈ l, f x = some x) : l.filterMap f = l := by
  induction l with
  | nil => rfl
  | cons x l ih =>
    rw [List.filterMap_cons, h x (List.mem_cons_self x l),
      ih (fun y hy => h y (List.mem_cons_of_mem x hy))]

/-- C1 counterexample: with vocabulary `[energy (range 0..10), e5]` where
`e5`'s name is the string "energy5", the selection `[(e5, null)]` has no
duplicate ids and its definition exists in the vocabulary, yet its encoding
"energy5" decodes to `(energy, 5)` — the prefix-plus-digits rule captures
the token first — so the round-trip fails as a set of (id, amount) pairs. -/
theorem roundtrip_fails :
    (ids [⟨e5Def, none⟩]).Nodup ∧
    (∀ s ∈ [(⟨e5Def, none⟩ : SelEntry)], s.tag ∈ [energyDef, e5Def]) ∧
    ("e5".data, (none : Option Int)) ∈ ([(⟨e5Def, none⟩ : SelEntry)]).map idAmount ∧
    ("e5".data, (none : Option Int)) ∉
      (parseCommentToTags (stringifyTagsForComment [⟨e5Def, none⟩])
        [energyDef, e5Def]).map idAmount := by
  decide

/-- C1 (amended): the round-trip holds — entry for entry, in order — for a
selection with no duplicate ids whose definitions exist in the vocabulary,
provided additionally that each entry has a valid name (the creation-time
invariant), its amount is a non-negative integer present exactly when the
definition has an amount range (the data-model invariant), and no other
definition of the vocabulary captures the entry's encoded token (the
counterexample shows the claim fails otherwise). -/
theorem roundtrip (S : List SelEntry) (V : List TagDef)
    (hnd : (ids S).Nodup)
    (hmem : ∀ s ∈ S, s.tag ∈ V)
    (hname : ∀ s ∈ S, validName s.tag.name = true)
    (hamt : ∀ s ∈ S, s.amount.isSome = s.tag.amountRange.isSome
      ∧ ∀ a, s.amount = some a → 0 ≤ a)
    (hnocap : ∀ s ∈ S, ∀ t ∈ V, captures t (entryToken s) = true → t = s.tag) :
    parseCommentToTags (stringifyTagsForComment S) V = S := by
  rw [stringifyTagsForComment, parseCommentToTags]
  have hwf : ∀ tok ∈ S.map entryToken, tok ≠ [] ∧ ';' ∉ tok ∧ trim tok = tok := by
    intro tok htok
    rcases List.mem_map.mp htok with ⟨s, hs, rfl⟩
    exact entryToken_wf s (hname s hs) (hamt s hs).1 (hamt s hs).2
  rw [splitTokens_joinSemi _ hwf, List.filterMap_map]
  apply filterMap_eq_self_of
  intro s hs
  have hfind : V.find? (fun t => captures t (entryToken s)) = some s.tag :=
    find_captures_self V s.tag (entryToken s) (hmem s hs)
      (captures_self s (hamt s hs).1 (hamt s hs).2) (hnocap s hs)
  have hmatch : tokenToTagMatch (entryToken s) V = (some s.tag, s.amount) := by
    rw [tokenToTagMatch_eq_matchSpec, matchSpec, hfind]
    show (some s.tag, amountOf s.tag (entryToken s)) = (some s.tag, s.amount)
    rw [amountOf_self s (hamt s hs).1 (hamt s hs).2]
  show (match tokenToTagMatch (entryToken s) V with
    | (some t, a) => some (⟨t, a⟩ : SelEntry)
    | (none, _) => none) = some s
  rw [hmatch]

/-- Witness for the amended C1 at a concrete input: the selection
`[(vocal, null), (energy, 7)]` round-trips through "vocal;energy7". -/
theorem roundtrip_witness :
    (ids [⟨vocalDef, none⟩, ⟨energyDef, some 7⟩]).Nodup ∧
    (∀ s ∈ [(⟨vocalDef, none⟩ : SelEntry), ⟨energyDef, some 7⟩],
      s.tag ∈ [vocalDef, energyDef]) ∧
    (∀ s ∈ [(⟨vocalDef, none⟩ : SelEntry), ⟨energyDef, some 7⟩],
      validName s.tag.name = true) ∧
    (∀ s ∈ [(⟨vocalDef, none⟩ : SelEntry), ⟨energyDef, some 7⟩],
      ∀ t ∈ [vocalDef, energyDef], captures t (entryToken s) = true → t = s.tag) ∧
    parseCommentToTags
        (stringifyTagsForComment [⟨vocalDef, none⟩, ⟨energyDef, some 7⟩])
        [vocalDef, energyDef]
      = [⟨vocalDef, none⟩, ⟨energyDef, some 7⟩] :=
  ⟨by decide, by decide, by decide, by decide,
    roundtrip [⟨vocalDef, none⟩, ⟨energyDef, some 7⟩] [vocalDef, energyDef]
      (by decide) (by decide) (by decide) (by decide) (by decide)⟩

/-! ## Claim C8: reconcile sentinel and trailing delimiter -/

/-- Whatever the serialized base string, stripping the `TagB:` tokens and
appending one sentinel yields a string whose tokenization carries exactly
that sentinel, provided the bank name has no semicolon and no whitespace. -/
theorem sentinel_structure (str bank : Str) (hbank1 : ';' ∉ bank)
    (hbank2 : ∀ c ∈ bank, isWsp c = false) :
    splitTokens (joinSemi ((splitTokens str).filter
        (fun t => !tagBankPrefix.isPrefixOf t) ++ [tagBankPrefix ++ bank]) ++ [';'])
      = (splitTokens str).filter (fun t => !tagBankPrefix.isPrefixOf t)
        ++ [tagBankPrefix ++ bank] := by
  apply splitTokens_joinSemi_trail
  intro t ht
  rcases List.mem_append.mp ht with h | h
  · exact mem_splitTokens str t (List.mem_filter.mp h).1
  · rw [List.mem_singleton.mp h]
    refine ⟨by simp [tagBankPrefix], ?nosemi, ?trimfix⟩
    · intro hm
      rcases List.mem_append.mp hm with h1 | h1
      · exact absurd h1 (by decide)
      · exact hbank1 h1
    · refine trim_eq_self _ ?nows
      intro c hc
      rcases List.mem_append.mp hc with h1 | h1
      · have hall : ∀ x ∈ tagBankPrefix, isWsp x = false := by decide
        exact hall c h1
      · exact hbank2 c h1

/-- The two C8 conclusions for an arbitrary serialized base string. -/
theorem sentinel_full (str bank : Str) (hbank1 : ';' ∉ bank)
    (hbank2 : ∀ c ∈ bank, isWsp c = false) :
    (splitTokens (joinSemi ((splitTokens str).filter
          (fun t => !tagBankPrefix.isPrefixOf t) ++ [tagBankPrefix ++ bank])
        ++ [';'])).filter (fun t => tagBankPrefix.isPrefixOf t)
      = [tagBankPrefix ++ bank] ∧
    (joinSemi ((splitTokens str).filter (fun t => !tagBankPrefix.isPrefixOf t)
        ++ [tagBankPrefix ++ bank]) ++ [';']).getLast? = some ';' := by
  constructor
  · rw [sentinel_structure str bank hbank1 hbank2, List.filter_append]
    have h1 : ((splitTokens str).filter (fun t => !tagBankPrefix.isPrefixOf t)).filter
        (fun t => tagBankPrefix.isPrefixOf t) = [] := by
      apply List.filter_eq_nil_iff.mpr
      intro a ha
      have := (List.mem_filter.mp ha).2
      simp only [Bool.not_eq_true'] at this
      simp [this]
    have h2 : ([tagBankPrefix ++ bank]).filter
        (fun t => tagBankPrefix.isPrefixOf t) = [tagBankPrefix ++ bank] := by
      apply List.filter_eq_self.mpr
      intro a ha
      rw [List.mem_singleton.mp ha]
      exact isPrefixOf_append_self _ _
    rw [h1, h2, List.nil_append]
  · exact List.getLast?_concat _

/-- C8: every string `persistTagsWithBankDecision` produces ends with `;`
and tokenizes to exactly one bank-sentinel token, the one naming the active
bank (any sentinel of the pre-edit comment is gone), provided the bank name
contains no semicolon and no whitespace; and in the concrete bank-switch
scenario (pre-edit comment "BankTag:jazz;mood;", active bank "rock", adding
`energy5`, discarding unknowns) the result is "energy5;TagB:rock;", whose
sentinel is the one for "rock" and which does not contain the token
"mood". -/
theorem persistTags_sentinel_spec :
    (∀ (chosen : List SelEntry) (ru ku : Bool) (comment : Str)
        (tags : List TagDef) (bank out : Str), ';' ∉ bank →
      (∀ c ∈ bank, isWsp c = false) →
      persistTagsWithBankDecision chosen ru ku comment tags bank = some out →
      (splitTokens out).filter (fun t => tagBankPrefix.isPrefixOf t)
          = [tagBankPrefix ++ bank] ∧ out.getLast? = some ';') ∧
    (persistTagsWithBankDecision
        (parseCommentToTags ("BankTag:jazz;mood;".data) [energyMainDef]
          ++ [⟨energyMainDef, some 5⟩])
        true false ("BankTag:jazz;mood;".data) [energyMainDef] ("rock".data)
      = some ("energy5;TagB:rock;".data) ∧
      ("mood".data : Str) ∉ splitTokens ("energy5;TagB:rock;".data)) := by
  constructor
  · intro chosen ru ku comment tags bank out hbank1 hbank2 hout
    simp only [persistTagsWithBankDecision] at hout
    split at hout
    · exact absurd hout (by simp)
    · have hout2 := Option.some_inj.mp hout
      subst hout2
      exact sentinel_full _ bank hbank1 hbank2
  · constructor
    · decide
    · decide

/-- Witness for C8 at a concrete input: the sentinel and trailing-delimiter
property evaluated on the bank-switch scenario's output string. -/
theorem persistTags_sentinel_spec_witness :
    (';' ∉ ("rock".data : Str)) ∧ (∀ c ∈ ("rock".data : Str), isWsp c = false) ∧
    ((splitTokens ("energy5;TagB:rock;".data)).filter
        (fun t => tagBankPrefix.isPrefixOf t) = [tagBankPrefix ++ "rock".data] ∧
      ("energy5;TagB:rock;".data : Str).getLast? = some ';') :=
  ⟨by decide, by decide,
    persistTags_sentinel_spec.1
      (parseCommentToTags ("BankTag:jazz;mood;".data) [energyMainDef]
        ++ [⟨energyMainDef, some 5⟩])
      true false ("BankTag:jazz;mood;".data) [energyMainDef] ("rock".data)
      ("energy5;TagB:rock;".data) (by decide) (by decide) (by decide)⟩

end AudioTags
